import Mathlib

/-!
Verification of the Relinky repository's two CSS utilities against their
specification: the unused-class pruner (`tools/prune_css.py`) and the CSS
organizer (`css_analyzer.py`).  Python strings are modelled as `List Char`
(or `String` for the organizer), Python `set` as a membership list, Python
`dict` as an insertion-ordered association list, and the hand-rolled
character scanners as structurally recursive Lean functions (index-bounded
loops take an explicit fuel argument equal to the scanned length, which the
loop never exhausts because every iteration advances by at least one
position — proved below).
-/

set_option maxRecDepth 20000

/-- Double-quote character (written via its code point). -/
def dquote : Char := Char.ofNat 34

/-- Single-quote character (written via its code point). -/
def squote : Char := Char.ofNat 39

/-- Backslash character. -/
def bslash : Char := Char.ofNat 92

/-- Whitespace test mirroring Python `str.isspace` / regex `\s` on the ASCII
range (space, tab, newline, carriage return, vertical tab, form feed). -/
def pyIsSpace (c : Char) : Bool :=
  c = ' ' || c = '\t' || c = '\n' || c = '\r' || c = Char.ofNat 11 || c = Char.ofNat 12

/-- Character class `[_a-zA-Z]` of the class-token regex. -/
def alphaU (c : Char) : Bool := c.isAlpha || c = '_'

/-- Character class `[_a-zA-Z0-9-]` (same set as the organizer's
`[a-zA-Z0-9_-]`). -/
def classChar (c : Char) : Bool := c.isAlpha || c.isDigit || c = '_' || c = '-'

/-- Quote test used by `split_selectors` (`ch in ('"', "'")`). -/
def isQuote (c : Char) : Bool := c = dquote || c = squote

/-- Python `str.strip()`: drop leading and trailing whitespace. -/
def pyStrip (l : List Char) : List Char :=
  ((l.dropWhile pyIsSpace).reverse.dropWhile pyIsSpace).reverse

/-- Python `str.strip()` on `String`. -/
def pyStripS (s : String) : String := ⟨pyStrip s.data⟩

/-- Python slice `s[a:b]` (clamped at the ends like Python). -/
def sliceList (s : List Char) (a b : Nat) : List Char := (s.take b).drop a

/-- Concatenation of a list of fragments, Python `''.join(out)`. -/
def concatAll : List (List Char) → List Char
  | [] => []
  | x :: rest => x ++ concatAll rest

/-- Lexicographic comparison of two character lists by code point, the order
Python uses to compare strings. -/
def lexLe : List Char → List Char → Bool
  | [], _ => true
  | _ :: _, [] => false
  | a :: as, b :: bs => if a < b then true else if b < a then false else lexLe as bs

/-- Insert into a `le`-sorted list, keeping it sorted (stable). -/
def insertSorted (le : α → α → Bool) (a : α) : List α → List α
  | [] => [a]
  | b :: rest => if le a b then a :: b :: rest else b :: insertSorted le a rest

/-- Sorting by insertion; agrees with Python `sorted` for a total order
because duplicate elements here are always identical values. -/
def sortBy (le : α → α → Bool) (l : List α) : List α :=
  l.foldr (insertSorted le) []

/-- Distinct elements of a token list (first occurrences kept); the element
set of Python `set(x)`. -/
def uniqAux (seen : List (List Char)) : List (List Char) → List (List Char)
  | [] => []
  | x :: rest => if seen.contains x then uniqAux seen rest else x :: uniqAux (x :: seen) rest

/-- Python `sorted(set(xs))` for string lists. -/
def pySortedSet (l : List (List Char)) : List (List Char) :=
  sortBy lexLe (uniqAux [] l)

/-- First index `j ≥ i` (scanning the suffix `l`) whose character satisfies
`p`, returning the final index if none does. -/
def scanIdxAux (p : Char → Bool) : List Char → Nat → Nat
  | [], i => i
  | c :: rest, i => if p c then i else scanIdxAux p rest (i + 1)

/-- Python `while j < n and not p(noc[j]): j += 1` started at `i`. -/
def scanIdx (noc : List Char) (p : Char → Bool) (i : Nat) : Nat :=
  scanIdxAux p (noc.drop i) i

/-- Body scan of the pruner: from index `k` with open-brace `depth`, walk the
remaining characters adjusting the depth on `{` and `}` until it reaches zero
or the input ends; returns the final index (one past the closing brace). -/
def bodyEndAux : List Char → Nat → Nat → Nat
  | [], k, _ => k
  | _ :: _, k, 0 => k
  | c :: rest, k, depth + 1 =>
      bodyEndAux rest (k + 1)
        (if c = '{' then depth + 2 else if c = '}' then depth else depth + 1)

/-- Python `k = j + 1; depth = 1; while k < n and depth > 0: ...` of the rule
body scan in `prune_css.py`. -/
def bodyEnd (noc : List Char) (k depth : Nat) : Nat :=
  bodyEndAux (noc.drop k) k depth

/-- Scan for the first occurrence of `*/`; returns the number of characters
before it and the remainder after it (the non-greedy part of the comment
regex `/\*[\s\S]*?\*/`). -/
def findClose : List Char → Option (Nat × List Char)
  | [] => none
  | [_] => none
  | c :: d :: rest =>
      if c = '*' ∧ d = '/' then some (0, rest)
      else (findClose (d :: rest)).map (fun p => (p.1 + 1, p.2))

/-- Comment blanking `comment_re.sub(lambda m: ' ' * (m.end()-m.start()), css)`:
each complete `/* ... */` comment is replaced by an equal number of spaces;
an unterminated `/*` has no match and is left as is.  The fuel argument is
the input length, which suffices since every step consumes at least one
character. -/
def blankCommentsF : Nat → List Char → List Char
  | 0, l => l
  | _ + 1, [] => []
  | fuel + 1, c :: rest =>
      match rest with
      | [] => [c]
      | d :: rest2 =>
          if c = '/' ∧ d = '*' then
            match findClose rest2 with
            | some (m, rest3) => List.replicate (m + 4) ' ' ++ blankCommentsF fuel rest3
            | none => c :: d :: rest2
          else c :: blankCommentsF fuel (d :: rest2)

/-- `css_nocomments` of `prune_css.py`. -/
def blankComments (css : List Char) : List Char := blankCommentsF css.length css

/-! ### `split_selectors` -/

/-- The character walk of `split_selectors`: accumulates the current selector
in `buf`, tracks parenthesis depth `dp`, bracket depth `db` (both floored at
zero via `Nat` subtraction, matching `max(0, depth-1)`), and the active quote
`inStr`.  A comma splits only outside strings at zero depth; inside a string
a backslash copies itself and the following character, advancing two
positions. -/
def splitLoop : List Char → List (List Char) → List Char → Nat → Nat → Option Char → List (List Char)
  | [], parts, buf, _, _, _ => if buf.isEmpty then parts else parts ++ [pyStrip buf]
  | c :: rest, parts, buf, dp, db, some q =>
      if c = q then splitLoop rest parts (buf ++ [c]) dp db none
      else if c = bslash then
        match rest with
        | [] => if (buf ++ [c]).isEmpty then parts else parts ++ [pyStrip (buf ++ [c])]
        | d :: rest2 => splitLoop rest2 parts (buf ++ [c, d]) dp db (some q)
      else splitLoop rest parts (buf ++ [c]) dp db (some q)
  | c :: rest, parts, buf, dp, db, none =>
      if isQuote c then splitLoop rest parts (buf ++ [c]) dp db (some c)
      else
        let dp2 := if c = '(' then dp + 1 else if c = ')' then dp - 1 else dp
        let db2 := if c = '[' then db + 1 else if c = ']' then db - 1 else db
        if c = ',' ∧ dp2 = 0 ∧ db2 = 0 then splitLoop rest (parts ++ [pyStrip buf]) [] dp2 db2 none
        else splitLoop rest parts (buf ++ [c]) dp2 db2 none

/-- `split_selectors(prelude)`: split on top-level commas, strip each part,
and drop empty parts. -/
def split_selectors (prelude : List Char) : List (List Char) :=
  (splitLoop prelude [] [] 0 0 none).filter (fun p => !p.isEmpty)

/-! ### Class tokens in a selector (`class_in_sel_re.findall`) -/

/-- Attempt to match the token part `-?[_a-zA-Z]+[_a-zA-Z0-9-]*` greedily at
the head of `cs` (the characters following a `.`); returns the matched token
and the remainder. -/
def tryTok (cs : List Char) : Option (List Char × List Char) :=
  match cs with
  | [] => none
  | c :: rest =>
      if c = '-' then
        match rest with
        | [] => none
        | d :: _ =>
            if alphaU d then some ('-' :: rest.takeWhile classChar, rest.dropWhile classChar)
            else none
      else if alphaU c then some (c :: rest.takeWhile classChar, rest.dropWhile classChar)
      else none

/-- Left-to-right non-overlapping scan of `\.(-?[_a-zA-Z]+[_a-zA-Z0-9-]*)`
(the `findall` of `class_in_sel_re`); fuel is the input length. -/
def classTokensF : Nat → List Char → List (List Char)
  | 0, _ => []
  | _ + 1, [] => []
  | fuel + 1, c :: rest =>
      if c = '.' then
        match tryTok rest with
        | some (tok, rest2) => tok :: classTokensF fuel rest2
        | none => classTokensF fuel rest
      else classTokensF fuel rest

/-- `class_in_sel_re.findall(sel)`: the class tokens of one selector. -/
def classTokensOf (sel : List Char) : List (List Char) := classTokensF sel.length sel

/-! ### Keep/remove decision -/

/-- A removed-rule record of the report: the rule's selectors and
`sorted(set(class_tokens))`. -/
structure RemovedRule where
  selectors : List (List Char)
  class_tokens : List (List Char)
deriving DecidableEq

/-- Verdict of the per-rule decision loop. -/
inductive Verdict where
  | keep : Verdict
  | drop : RemovedRule → Verdict
deriving DecidableEq

/-- One iteration of the decision loop over the selector list: accumulates
`(class_tokens, any_used, any_class)` exactly as the Python loop does. -/
def verdictStep (used : List (List Char)) (acc : List (List Char) × Bool × Bool)
    (sel : List Char) : List (List Char) × Bool × Bool :=
  let tokens := classTokensOf sel
  if tokens.isEmpty then acc
  else (acc.1 ++ tokens, acc.2.1 || tokens.any (fun t => used.contains t), true)

/-- The keep/remove decision of the segmentation loop: keep when no selector
yields class tokens, keep when some token is used, otherwise remove and
record the selectors together with the sorted unique class tokens. -/
def ruleVerdict (used : List (List Char)) (selectors : List (List Char)) : Verdict :=
  let r := selectors.foldl (verdictStep used) ([], false, false)
  if !r.2.2 then Verdict.keep
  else if r.2.1 then Verdict.keep
  else Verdict.drop ⟨selectors, pySortedSet r.1⟩

/-! ### The segmentation loop -/

/-- Mutable state of the segmentation loop: emitted fragments, counters and
removed-rule records. -/
structure SegState where
  out : List (List Char)
  kept : Nat
  removed : Nat
  removedRules : List RemovedRule
deriving DecidableEq

/-- Result of one iteration of the `while i < n` loop: either the loop broke
(returning the final state) or it continues at a new index. -/
inductive StepRes where
  | done : SegState → StepRes
  | cont : Nat → SegState → StepRes
deriving DecidableEq

/-- One iteration of the segmentation loop of `prune_css.py`: classify the
character of the comment-blanked text `noc` at `i` (stray `}` / whitespace /
at-rule / rule), emitting fragments taken from the original text `css`. -/
def segStep (used : List (List Char)) (css noc : List Char) (i : Nat) (st : SegState) : StepRes :=
  let n := noc.length
  let ch := noc.getD i ' '
  if ch = '}' then
    StepRes.cont (i + 1) { st with out := st.out ++ [['}']] }
  else if pyIsSpace ch then
    StepRes.cont (i + 1) { st with out := st.out ++ [sliceList css i (i + 1)] }
  else if ch = '@' then
    let j := scanIdx noc (fun c => c = '{' || c = ';') i
    if j < n then StepRes.cont (j + 1) { st with out := st.out ++ [sliceList css i (j + 1)] }
    else StepRes.cont j { st with out := st.out ++ [sliceList css i j] }
  else
    let j := scanIdx noc (fun c => c = '{') i
    if n ≤ j then
      StepRes.done { st with out := st.out ++ [css.drop i] }
    else
      let preludeSrc := sliceList css i j
      let preludeWs := preludeSrc.takeWhile pyIsSpace
      let prelude := pyStrip preludeSrc
      let k := bodyEnd noc (j + 1) 1
      let body := sliceList css j k
      match ruleVerdict used (split_selectors prelude) with
      | Verdict.keep =>
          StepRes.cont k
            { st with out := st.out ++ [preludeWs ++ prelude ++ body], kept := st.kept + 1 }
      | Verdict.drop r =>
          StepRes.cont k
            { st with removed := st.removed + 1, removedRules := st.removedRules ++ [r] }

/-- The `while i < n` segmentation loop, iterated with explicit fuel; fuel
`n - i` suffices because every iteration strictly advances `i` (proved
below), so the `fuel = 0` branch is never reached from `pruneResult`. -/
def segLoopF (used : List (List Char)) (css noc : List Char) : Nat → Nat → SegState → SegState
  | 0, _, st => st
  | fuel + 1, i, st =>
      if i < noc.length then
        match segStep used css noc i st with
        | StepRes.done st' => st'
        | StepRes.cont i' st' => segLoopF used css noc fuel i' st'
      else st

/-- The whole pruner pass on a stylesheet: blank comments, then run the
segmentation loop from position 0 with empty state. -/
def pruneResult (css : List Char) (used : List (List Char)) : SegState :=
  segLoopF used css (blankComments css) (blankComments css).length 0 ⟨[], 0, 0, []⟩

/-- `pruned_css = ''.join(out)`. -/
def pruned_css (css : List Char) (used : List (List Char)) : List Char :=
  concatAll (pruneResult css used).out

/-- Report field `original_bytes`. -/
def original_bytes (css : List Char) : Nat := css.length

/-- Report field `pruned_bytes`. -/
def pruned_bytes (css : List Char) (used : List (List Char)) : Nat :=
  (pruned_css css used).length

/-- Report field `bytes_saved_estimate = len(css_text) - len(pruned_css)`
(Python integer subtraction). -/
def bytes_saved_estimate (css : List Char) (used : List (List Char)) : Int :=
  (original_bytes css : Int) - (pruned_bytes css used : Int)

/-- Companion accounting of the segmentation loop: the total number of
characters stripped from rule preludes (`prelude_src` minus its leading
whitespace and stripped core), following the same branch structure as
`segStep`/`segLoopF`. -/
def segTrimF (css noc : List Char) : Nat → Nat → Nat
  | 0, _ => 0
  | fuel + 1, i =>
      if i < noc.length then
        let ch := noc.getD i ' '
        if ch = '}' then segTrimF css noc fuel (i + 1)
        else if pyIsSpace ch then segTrimF css noc fuel (i + 1)
        else if ch = '@' then
          let j := scanIdx noc (fun c => c = '{' || c = ';') i
          if j < noc.length then segTrimF css noc fuel (j + 1)
          else segTrimF css noc fuel j
        else
          let j := scanIdx noc (fun c => c = '{') i
          if noc.length ≤ j then 0
          else
            let preludeSrc := sliceList css i j
            (preludeSrc.length -
                ((preludeSrc.takeWhile pyIsSpace).length + (pyStrip preludeSrc).length)) +
              segTrimF css noc fuel (bodyEnd noc (j + 1) 1)
      else 0

/-- Total prelude whitespace stripped over a whole pruner pass. -/
def segTrim (css : List Char) : Nat :=
  segTrimF css (blankComments css) (blankComments css).length 0

/-! ### Used-class scanner (`used_classes` collection of `prune_css.py`) -/

/-- Match a literal character sequence at the head of the input, returning
the remainder. -/
def dropLit : List Char → List Char → Option (List Char)
  | [], cs => some cs
  | _ :: _, [] => none
  | p :: ps, c :: cs => if c = p then dropLit ps cs else none

/-- Full match of `cls_token_re = -?[_a-zA-Z]+[_a-zA-Z0-9-]*`. -/
def isClsToken (t : List Char) : Bool :=
  match t with
  | [] => false
  | c :: rest =>
      if c = '-' then
        match rest with
        | [] => false
        | d :: _ => alphaU d && rest.all classChar
      else alphaU c && rest.all classChar

/-- Python `re.split(r'\s+', s)`: split on maximal whitespace runs, keeping
an empty piece at either end when the input starts or ends with whitespace.
Fuel is the input length. -/
def pySplitWsF : Nat → List Char → List Char → List (List Char)
  | 0, rest, acc => [acc.reverse ++ rest]
  | _ + 1, [], acc => [acc.reverse]
  | fuel + 1, c :: rest, acc =>
      if pyIsSpace c then acc.reverse :: pySplitWsF fuel (rest.dropWhile pyIsSpace) []
      else pySplitWsF fuel rest (c :: acc)

/-- Python `re.split(r'\s+', s)`. -/
def pySplitWs (s : List Char) : List (List Char) := pySplitWsF s.length s []

/-- Whitespace-split a matched group and keep the pieces that fully match
the class-token grammar (the token collection applied to most groups). -/
def wsTokens (g : List Char) : List (List Char) :=
  (pySplitWs g).filter isClsToken

/-- Match of `class\s*=\s*["\']([^"\']+)` at the head of the input: returns
the quoted-value group and the remainder after the match. -/
def mClassAttr (cs : List Char) : Option (List Char × List Char) :=
  match dropLit "class".data cs with
  | none => none
  | some r1 =>
      match (r1.dropWhile pyIsSpace) with
      | c :: r2 =>
          if c = '=' then
            match r2.dropWhile pyIsSpace with
            | d :: r3 =>
                if isQuote d then
                  let g := r3.takeWhile (fun x => !isQuote x)
                  if g.isEmpty then none else some (g, r3.dropWhile (fun x => !isQuote x))
                else none
            | [] => none
          else none
      | [] => none

/-- Match of `className\s*=\s*["\']([^"\']+)`. -/
def mClassName (cs : List Char) : Option (List Char × List Char) :=
  match dropLit "className".data cs with
  | none => none
  | some r1 =>
      match (r1.dropWhile pyIsSpace) with
      | c :: r2 =>
          if c = '=' then
            match r2.dropWhile pyIsSpace with
            | d :: r3 =>
                if isQuote d then
                  let g := r3.takeWhile (fun x => !isQuote x)
                  if g.isEmpty then none else some (g, r3.dropWhile (fun x => !isQuote x))
                else none
            | [] => none
          else none
      | [] => none

/-- Match of `classList\.(?:add|remove|toggle)\(([^)]*)\)`: the argument
text (possibly empty) up to the required closing parenthesis. -/
def mClassList (cs : List Char) : Option (List Char × List Char) :=
  match dropLit "classList.".data cs with
  | none => none
  | some r1 =>
      let afterMethod :=
        match dropLit "add(".data r1 with
        | some r2 => some r2
        | none =>
            match dropLit "remove(".data r1 with
            | some r2 => some r2
            | none => dropLit "toggle(".data r1
      match afterMethod with
      | none => none
      | some r2 =>
          let g := r2.takeWhile (fun x => x != ')')
          match r2.dropWhile (fun x => x != ')') with
          | c :: rest => if c = ')' then some (g, rest) else none
          | [] => none

/-- Match of `["\']([^"\']+)["\']` (`string_literal_re`): a quoted run with
a required closing quote (either kind). -/
def mStrLit (cs : List Char) : Option (List Char × List Char) :=
  match cs with
  | c :: r1 =>
      if isQuote c then
        let g := r1.takeWhile (fun x => !isQuote x)
        if g.isEmpty then none
        else
          match r1.dropWhile (fun x => !isQuote x) with
          | d :: rest => if isQuote d then some (g, rest) else none
          | [] => none
      else none
  | [] => none

/-- Match of `querySelector(?:All)?\(\s*["\']\.([^"\')]+)`: the selector
text after the leading dot, up to a quote or closing parenthesis. -/
def mQs (cs : List Char) : Option (List Char × List Char) :=
  let afterCall :=
    match dropLit "querySelectorAll(".data cs with
    | some r => some r
    | none => dropLit "querySelector(".data cs
  match afterCall with
  | none => none
  | some r1 =>
      match r1.dropWhile pyIsSpace with
      | c :: r2 =>
          if isQuote c then
            match r2 with
            | d :: r3 =>
                if d = '.' then
                  let g := r3.takeWhile (fun x => !(isQuote x || x = ')'))
                  if g.isEmpty then none
                  else some (g, r3.dropWhile (fun x => !(isQuote x || x = ')')))
                else none
            | [] => none
          else none
      | [] => none

/-- Match of `getElementsByClassName\(\s*["\']([^"\']+)`. -/
def mGetByClass (cs : List Char) : Option (List Char × List Char) :=
  match dropLit "getElementsByClassName(".data cs with
  | none => none
  | some r1 =>
      match r1.dropWhile pyIsSpace with
      | c :: r2 =>
          if isQuote c then
            let g := r2.takeWhile (fun x => !isQuote x)
            if g.isEmpty then none else some (g, r2.dropWhile (fun x => !isQuote x))
          else none
      | [] => none

/-- Non-overlapping left-to-right `finditer` scan with an arbitrary matcher:
on a match continue after it, otherwise advance one character.  Fuel is the
input length, which suffices since every successful match of the matchers
above consumes at least one character. -/
def scanMF (m : List Char → Option (List Char × List Char)) : Nat → List Char → List (List Char)
  | 0, _ => []
  | _ + 1, [] => []
  | fuel + 1, c :: rest =>
      match m (c :: rest) with
      | some (g, rest2) => g :: scanMF m fuel rest2
      | none => scanMF m fuel rest

/-- `finditer` over a whole input. -/
def scanM (m : List Char → Option (List Char × List Char)) (cs : List Char) : List (List Char) :=
  scanMF m cs.length cs

/-- All used-class tokens collected from one file's text, in the order the
five regex passes of `prune_css.py` add them. -/
def collectUsedTokens (text : List Char) : List (List Char) :=
  (scanM mClassAttr text).flatMap wsTokens ++
  (scanM mClassName text).flatMap wsTokens ++
  (scanM mClassList text).flatMap (fun args => (scanM mStrLit args).flatMap wsTokens) ++
  (scanM mQs text).flatMap (fun sel =>
    let first := sel.takeWhile classChar
    if isClsToken first then [first] else []) ++
  (scanM mGetByClass text).flatMap wsTokens

/-- A directory entry seen by the tree scan: whether it is a regular file,
its `path.suffix`, and the text `read_text` returns — `none` when the read
raises (the `except Exception: continue` path). -/
structure FsEntry where
  isFile : Bool
  suffix : String
  content : Option String
deriving DecidableEq

/-- The extension allow-list of the tree scan. -/
def allowedExts : List String := [".html", ".js", ".ts", ".jsx", ".tsx"]

/-- Python `str.lower()` (per-character). -/
def pyLowerS (s : String) : String := ⟨s.data.map Char.toLower⟩

/-- The per-entry body of the tree-scan loop: skip non-files (`continue`),
skip disallowed extensions (`continue`), skip files whose read raises
(`except Exception: continue`), and collect tokens from the rest. -/
def entryTokens (e : FsEntry) : List (List Char) :=
  if e.isFile = false then []
  else if (allowedExts.contains (pyLowerS e.suffix)) = false then []
  else
    match e.content with
    | none => []
    | some text => collectUsedTokens text.data

/-- The pruner's tree scan over all entries.  The Python `set` is modelled
by the list of insertions; membership is the observable. -/
def scanUsedClasses : List FsEntry → List (List Char)
  | [] => []
  | e :: rest => entryTokens e ++ scanUsedClasses rest

/-- Append one emitted fragment to the out list of a state (shorthand used
in theorem statements about single loop steps). -/
def pushOut (st : SegState) (x : List Char) : SegState := { st with out := st.out ++ [x] }

/-! ### CSS organizer (`css_analyzer.py`) -/

/-- Single-character string. -/
def chStr (c : Char) : String := ⟨[c]⟩

/-- Python `str.upper()` (per-character). -/
def upperS (s : String) : String := ⟨s.data.map Char.toUpper⟩

/-- String order used by Python `sorted` on strings. -/
def strLe (a b : String) : Bool := lexLe a.data b.data

/-- Substring containment, Python `pat in s`. -/
def isSubstr (pat : List Char) : List Char → Bool
  | [] => pat.isEmpty
  | c :: rest => pat.isPrefixOf (c :: rest) || isSubstr pat rest

/-- Python `"\n".join(parts)`. -/
def joinSep (sep : String) : List String → String
  | [] => ""
  | [x] => x
  | x :: y :: rest => x ++ sep ++ joinSep sep (y :: rest)

/-- Insertion-ordered dict assignment `d[k] = v` (overwrite keeps the
original position). -/
def dictSet (k v : String) : List (String × String) → List (String × String)
  | [] => [(k, v)]
  | (k2, v2) :: rest => if k2 = k then (k2, v) :: rest else (k2, v2) :: dictSet k v rest

/-- `defaultdict(list)` access-and-extend `d[k].extend(vs)`. -/
def dictExtend (k : String) (vs : List String) :
    List (String × List String) → List (String × List String)
  | [] => [(k, vs)]
  | (k2, v2) :: rest => if k2 = k then (k2, v2 ++ vs) :: rest else (k2, v2) :: dictExtend k vs rest

/-- Dict lookup with default. -/
def lookupD (items : List (String × List String)) (k : String) : List String :=
  match items with
  | [] => []
  | (k2, v2) :: rest => if k2 = k then v2 else lookupD rest k

/-- Match of the class-only rule pattern `\.([a-zA-Z0-9_-]+)\s*{([^}]+)}` at
the head of the input: class name, raw properties text (at least one
non-`}` character, closing brace required), and the remainder after the
match. -/
def matchClassRule : List Char → Option (String × String × List Char)
  | [] => none
  | c :: rest =>
      if c = '.' then
        let name := rest.takeWhile classChar
        if name.isEmpty then none
        else
          let after := (rest.dropWhile classChar).dropWhile pyIsSpace
          match after with
          | b :: body =>
              if b = '{' then
                let props := body.takeWhile (fun x => x != '}')
                if props.isEmpty then none
                else
                  match body.dropWhile (fun x => x != '}') with
                  | e :: rest2 => if e = '}' then some (⟨name⟩, ⟨props⟩, rest2) else none
                  | [] => none
              else none
          | [] => none
      else none

/-- `finditer` scan of the class-only rule pattern; fuel is the input
length. -/
def extractClassRulesF : Nat → List Char → List (String × String)
  | 0, _ => []
  | _ + 1, [] => []
  | fuel + 1, c :: rest =>
      match matchClassRule (c :: rest) with
      | some (name, props, rest2) => (name, props) :: extractClassRulesF fuel rest2
      | none => extractClassRulesF fuel rest

/-- The second (later, and therefore live) definition of
`extract_css_rules` in `css_analyzer.py`: the class-only matcher mapping
each class name to its last properties string, stripped. -/
def extract_css_rules (content : String) : List (String × String) :=
  (extractClassRulesF content.data.length content.data).foldl
    (fun rules p => dictSet p.1 (pyStripS p.2) rules) []

/-- Match of the generic rule pattern `([^{]+)\s*{\s*([^}]+)\s*}` at the
head of the input (the first, shadowed `extract_css_rules`): the selector
group is everything up to the opening brace (at least one character); the
declarations group is the run up to the closing brace minus its leading
whitespace (backtracking leaves one character when the run is all
whitespace). -/
def matchGenericRule : List Char → Option (String × String × List Char)
  | [] => none
  | c :: rest =>
      if c = '{' then none
      else
        let g1 := (c :: rest).takeWhile (fun x => x != '{')
        match (c :: rest).dropWhile (fun x => x != '{') with
        | b :: body =>
            if b = '{' then
              let r := body.takeWhile (fun x => x != '}')
              match body.dropWhile (fun x => x != '}') with
              | e :: rest2 =>
                  if e = '}' then
                    if r.isEmpty then none
                    else
                      let a := min (r.takeWhile pyIsSpace).length (r.length - 1)
                      some (⟨g1⟩, ⟨r.drop a⟩, rest2)
                  else none
              | [] => none
            else none
        | [] => none

/-- `findall` scan of the generic rule pattern; fuel is the input length. -/
def extractGenericRulesF : Nat → List Char → List (String × String)
  | 0, _ => []
  | _ + 1, [] => []
  | fuel + 1, c :: rest =>
      match matchGenericRule (c :: rest) with
      | some (sel, decls, rest2) => (sel, decls) :: extractGenericRulesF fuel rest2
      | none => extractGenericRulesF fuel rest

/-- Python `s.split(';')` (single separator, empties kept). -/
def splitOnSemi : List Char → List (List Char)
  | [] => [[]]
  | c :: rest =>
      if c = ';' then [] :: splitOnSemi rest
      else
        match splitOnSemi rest with
        | [] => [[c]]
        | p :: ps => (c :: p) :: ps

/-- The first (shadowed) definition of `extract_css_rules`: the generic
`selector { declarations }` matcher producing a `defaultdict(list)` of
stripped declarations per stripped selector. -/
def extract_css_rules_generic (content : String) : List (String × List String) :=
  (extractGenericRulesF content.data.length content.data).foldl
    (fun rules p =>
      dictExtend (pyStripS p.1)
        (((splitOnSemi p.2.data).map (fun d => pyStrip d)).filterMap
          (fun d => if d.isEmpty then none else some (⟨d⟩ : String)))
        rules) []

/-- `merge_duplicate_selectors` as invoked by the live pipeline, where each
value is a properties *string*: Python `list.extend(str)` appends the
characters of the string as one-character strings. -/
def merge_duplicate_selectors (rules : List (String × String)) : List (String × List String) :=
  rules.foldl
    (fun merged p =>
      if 0 < p.2.length then dictExtend (pyStripS p.1) (p.2.data.map chStr) merged
      else merged) []

/-- `merge_duplicate_selectors` on list-valued rule dicts (the type the
shadowed generic extractor would feed it). -/
def merge_duplicate_selectors_list (rules : List (String × List String)) :
    List (String × List String) :=
  rules.foldl
    (fun merged p =>
      if 0 < p.2.length then dictExtend (pyStripS p.1) p.2 merged
      else merged) []

/-- The selector categorization if-chain of `organize_selectors`. -/
def selectorCategory (selector : String) : String :=
  if isSubstr "@keyframes".data selector.data then "keyframes"
  else if ['.'].isPrefixOf selector.data then "classes"
  else if ['#'].isPrefixOf selector.data then "ids"
  else if selector.data.contains ':' then "pseudo"
  else if selector.data.contains '[' then "attributes"
  else if selector.data.contains '>' || selector.data.contains '+' || selector.data.contains '~'
    then "combinators"
  else "elements"

/-- `organize_selectors`: group the merged selectors by category (selector
keys are unique, so the per-category dict is the filtered sublist). -/
def organize_selectors (merged : List (String × List String)) (category : String) :
    List (String × List String) :=
  merged.filter (fun p => selectorCategory p.1 = category)

/-- The fixed category order of `generate_organized_css`. -/
def category_order : List String :=
  ["keyframes", "elements", "classes", "ids", "pseudo", "attributes", "combinators"]

/-- `generate_organized_css`: per category in the fixed order, a header
comment, then the selectors sorted, each with its declarations sorted, all
joined with newlines. -/
def generate_organized_css (grouped : String → List (String × List String)) : String :=
  joinSep "\n"
    (category_order.flatMap (fun category =>
      let items := grouped category
      if items.isEmpty then []
      else
        ("\n/* " ++ upperS category ++ " */") ::
          (sortBy strLe (items.map Prod.fst)).flatMap (fun selector =>
            (selector ++ " \x7b") ::
              ((sortBy strLe (lookupD items selector)).map
                  (fun decl => "    " ++ decl ++ ";") ++
                ["\x7d", ""]))))

/-- The CSS-transforming core of `organize_css_file`: extract rules (with
the live, class-only `extract_css_rules`), merge duplicate selectors,
categorize, render.  HTML `<style>` extraction and file rewriting are plain
I/O around this core. -/
def organizePipeline (css_content : String) : String :=
  generate_organized_css
    (organize_selectors (merge_duplicate_selectors (extract_css_rules css_content)))

/-- The pipeline the shadowed generic extractor would have produced, for
comparison with the live one. -/
def genericPipeline (css_content : String) : String :=
  generate_organized_css
    (organize_selectors (merge_duplicate_selectors_list (extract_css_rules_generic css_content)))

/-! ### Helper lemmas -/

theorem scanIdxAux_ge (p : Char → Bool) :
    ∀ (l : List Char) (i : Nat), i ≤ scanIdxAux p l i
  | [], i => Nat.le_refl i
  | c :: rest, i => by
      simp only [scanIdxAux]
      split
      · exact Nat.le_refl i
      · exact Nat.le_trans (Nat.le_succ i) (scanIdxAux_ge p rest (i + 1))

theorem scanIdxAux_le (p : Char → Bool) :
    ∀ (l : List Char) (i : Nat), scanIdxAux p l i ≤ i + l.length
  | [], i => by simp [scanIdxAux]
  | c :: rest, i => by
      simp only [scanIdxAux]
      split
      · omega
      · have := scanIdxAux_le p rest (i + 1)
        simp only [List.length_cons]
        omega

theorem scanIdx_ge (noc : List Char) (p : Char → Bool) (i : Nat) : i ≤ scanIdx noc p i :=
  scanIdxAux_ge p (noc.drop i) i

theorem scanIdx_le (noc : List Char) (p : Char → Bool) (i : Nat) (h : i ≤ noc.length) :
    scanIdx noc p i ≤ noc.length := by
  have := scanIdxAux_le p (noc.drop i) i
  rw [List.length_drop] at this
  unfold scanIdx
  omega

theorem bodyEndAux_ge : ∀ (l : List Char) (k d : Nat), k ≤ bodyEndAux l k d
  | [], k, _ => Nat.le_refl k
  | _ :: _, k, 0 => Nat.le_refl k
  | _ :: rest, k, _ + 1 =>
      Nat.le_trans (Nat.le_succ k) (bodyEndAux_ge rest (k + 1) _)

theorem bodyEndAux_le : ∀ (l : List Char) (k d : Nat), bodyEndAux l k d ≤ k + l.length
  | [], k, d => by simp [bodyEndAux]
  | c :: rest, k, 0 => by simp [bodyEndAux]
  | c :: rest, k, d + 1 => by
      have := bodyEndAux_le rest (k + 1) (if c = '{' then d + 2 else if c = '}' then d else d + 1)
      simp only [bodyEndAux, List.length_cons]
      omega

theorem bodyEnd_ge (noc : List Char) (k d : Nat) : k ≤ bodyEnd noc k d :=
  bodyEndAux_ge (noc.drop k) k d

theorem bodyEnd_le (noc : List Char) (k d : Nat) (h : k ≤ noc.length) :
    bodyEnd noc k d ≤ noc.length := by
  have := bodyEndAux_le (noc.drop k) k d
  rw [List.length_drop] at this
  unfold bodyEnd
  omega

theorem concatAll_append : ∀ (a b : List (List Char)),
    concatAll (a ++ b) = concatAll a ++ concatAll b
  | [], b => rfl
  | x :: rest, b => by
      show x ++ concatAll (rest ++ b) = (x ++ concatAll rest) ++ concatAll b
      rw [concatAll_append rest b, List.append_assoc]

theorem concatAll_snoc_length (o : List (List Char)) (x : List Char) :
    (concatAll (o ++ [x])).length = (concatAll o).length + x.length := by
  rw [concatAll_append]
  simp [concatAll]

theorem sliceList_len_le (s : List Char) (a b : Nat) : (sliceList s a b).length ≤ b - a := by
  simp only [sliceList, List.length_drop, List.length_take]
  omega

theorem sliceList_len_eq (s : List Char) (a b : Nat) (hb : b ≤ s.length) (hab : a ≤ b) :
    (sliceList s a b).length = b - a := by
  simp only [sliceList, List.length_drop, List.length_take]
  omega

theorem pyStrip_len_le (l : List Char) :
    (l.takeWhile pyIsSpace).length + (pyStrip l).length ≤ l.length := by
  have h1 : (pyStrip l).length ≤ (l.dropWhile pyIsSpace).length := by
    unfold pyStrip
    rw [List.length_reverse]
    calc ((l.dropWhile pyIsSpace).reverse.dropWhile pyIsSpace).length
        ≤ (l.dropWhile pyIsSpace).reverse.length :=
          (List.dropWhile_sublist pyIsSpace).length_le
      _ = (l.dropWhile pyIsSpace).length := List.length_reverse _
  have h2 : (l.takeWhile pyIsSpace).length + (l.dropWhile pyIsSpace).length = l.length := by
    have := congrArg List.length (List.takeWhile_append_dropWhile pyIsSpace l)
    rwa [List.length_append] at this
  omega

theorem findClose_len : ∀ (l : List Char) (m : Nat) (rest : List Char),
    findClose l = some (m, rest) → l.length = m + 2 + rest.length
  | [], m, rest => by simp [findClose]
  | [c], m, rest => by simp [findClose]
  | c :: d :: l2, m, rest => by
      simp only [findClose]
      split
      · intro h
        injection h with h2
        have h3 := congrArg Prod.fst h2
        have h4 := congrArg Prod.snd h2
        simp at h3 h4
        subst h3
        subst h4
        simp only [List.length_cons]
        omega
      · intro h
        rw [Option.map_eq_some'] at h
        obtain ⟨⟨m2, r2⟩, hfc, hpair⟩ := h
        have h3 := congrArg Prod.fst hpair
        have h4 := congrArg Prod.snd hpair
        simp at h3 h4
        have hrec := findClose_len (d :: l2) m2 r2 hfc
        have h5 := congrArg List.length h4
        simp only [List.length_cons] at hrec ⊢
        omega

theorem blankCommentsF_len : ∀ (fuel : Nat) (l : List Char),
    (blankCommentsF fuel l).length = l.length
  | 0, _ => rfl
  | _ + 1, [] => rfl
  | _ + 1, [_] => rfl
  | fuel + 1, c :: d :: rest2 => by
      simp only [blankCommentsF]
      split
      · cases hfc : findClose rest2 with
        | none => simp [hfc]
        | some p =>
            obtain ⟨m, rest3⟩ := p
            have hlen := findClose_len rest2 m rest3 hfc
            simp only [hfc, List.length_append, List.length_replicate,
              blankCommentsF_len fuel rest3, List.length_cons]
            omega
      · simp only [List.length_cons, blankCommentsF_len fuel (d :: rest2)]

theorem blankComments_len (css : List Char) : (blankComments css).length = css.length :=
  blankCommentsF_len css.length css

theorem flatMapTokens_eq_nil (sels : List (List Char)) :
    sels.flatMap classTokensOf = [] ↔ ∀ s ∈ sels, classTokensOf s = [] := by
  induction sels with
  | nil => simp
  | cons s rest ih =>
      simp [List.flatMap_cons, List.append_eq_nil, ih]

theorem segStep_advance {used : List (List Char)} {css noc : List Char} {i : Nat}
    {st : SegState} {i' : Nat} {st' : SegState} (hn : i < noc.length)
    (he : segStep used css noc i st = StepRes.cont i' st') : i < i' ∧ i' ≤ noc.length := by
  unfold segStep at he
  by_cases h1 : noc.getD i ' ' = '}'
  · rw [if_pos h1] at he
    rw [StepRes.cont.injEq] at he
    omega
  · rw [if_neg h1] at he
    by_cases h2 : pyIsSpace (noc.getD i ' ') = true
    · rw [if_pos h2] at he
      rw [StepRes.cont.injEq] at he
      omega
    · rw [if_neg h2] at he
      by_cases h3 : noc.getD i ' ' = '@'
      · rw [if_pos h3] at he
        have hjge := scanIdx_ge noc (fun c => c = '{' || c = ';') i
        have hjle := scanIdx_le noc (fun c => c = '{' || c = ';') i (Nat.le_of_lt hn)
        by_cases h4 : scanIdx noc (fun c => c = '{' || c = ';') i < noc.length
        · rw [if_pos h4] at he
          rw [StepRes.cont.injEq] at he
          omega
        · rw [if_neg h4] at he
          rw [StepRes.cont.injEq] at he
          omega
      · rw [if_neg h3] at he
        have hjge := scanIdx_ge noc (fun c => c = '{') i
        by_cases h5 : noc.length ≤ scanIdx noc (fun c => c = '{') i
        · rw [if_pos h5] at he
          exact absurd he (by simp)
        · rw [if_neg h5] at he
          have hkge := bodyEnd_ge noc (scanIdx noc (fun c => c = '{') i + 1) 1
          have hkle := bodyEnd_le noc (scanIdx noc (fun c => c = '{') i + 1) 1 (by omega)
          rcases hv : ruleVerdict used (split_selectors
              (pyStrip (sliceList css i (scanIdx noc (fun c => c = '{') i)))) with _ | r
          · simp only [hv] at he
            rw [StepRes.cont.injEq] at he
            omega
          · simp only [hv] at he
            rw [StepRes.cont.injEq] at he
            omega

theorem segStep_cases (used : List (List Char)) (css noc : List Char) (i : Nat) (st : SegState)
    (fuel : Nat) (hn : i < noc.length) (hc : css.length = noc.length) :
    (segStep used css noc i st = StepRes.done { st with out := st.out ++ [css.drop i] } ∧
        segTrimF css noc (fuel + 1) i = 0) ∨
      (∃ i' st' t, segStep used css noc i st = StepRes.cont i' st' ∧ i < i' ∧ i' ≤ noc.length ∧
        segTrimF css noc (fuel + 1) i = t + segTrimF css noc fuel i' ∧
        ((st'.removed = st.removed ∧
            (concatAll st'.out).length + t = (concatAll st.out).length + (i' - i)) ∨
          (st'.removed = st.removed + 1 ∧ st'.out = st.out ∧ t ≤ i' - i))) := by
  by_cases h1 : noc.getD i ' ' = '}'
  · right
    refine ⟨i + 1, { st with out := st.out ++ [['}']] }, 0, ?_, by omega, by omega, ?_,
      Or.inl ⟨rfl, ?_⟩⟩
    · simp only [segStep]
      rw [if_pos h1]
    · simp only [segTrimF]
      rw [if_pos hn, if_pos h1]
      omega
    · rw [concatAll_snoc_length]
      simp
  · by_cases h2 : pyIsSpace (noc.getD i ' ') = true
    · right
      refine ⟨i + 1, { st with out := st.out ++ [sliceList css i (i + 1)] }, 0, ?_, by omega,
        by omega, ?_, Or.inl ⟨rfl, ?_⟩⟩
      · simp only [segStep]
        rw [if_neg h1, if_pos h2]
      · simp only [segTrimF]
        rw [if_pos hn, if_neg h1, if_pos h2]
        omega
      · rw [concatAll_snoc_length]
        rw [sliceList_len_eq css i (i + 1) (by omega) (by omega)]
        omega
    · by_cases h3 : noc.getD i ' ' = '@'
      · set j := scanIdx noc (fun c => c = '{' || c = ';') i with hjdef
        have hjge : i ≤ j := scanIdx_ge noc _ i
        have hjle : j ≤ noc.length := scanIdx_le noc _ i (Nat.le_of_lt hn)
        by_cases h4 : j < noc.length
        · right
          refine ⟨j + 1, { st with out := st.out ++ [sliceList css i (j + 1)] }, 0, ?_,
            by omega, by omega, ?_, Or.inl ⟨rfl, ?_⟩⟩
          · simp only [segStep]
            rw [← hjdef, if_neg h1, if_neg h2, if_pos h3, if_pos h4]
          · simp only [segTrimF]
            rw [← hjdef, if_pos hn, if_neg h1, if_neg h2, if_pos h3, if_pos h4]
            omega
          · rw [concatAll_snoc_length]
            rw [sliceList_len_eq css i (j + 1) (by omega) (by omega)]
            omega
        · right
          refine ⟨j, { st with out := st.out ++ [sliceList css i j] }, 0, ?_,
            by omega, by omega, ?_, Or.inl ⟨rfl, ?_⟩⟩
          · simp only [segStep]
            rw [← hjdef, if_neg h1, if_neg h2, if_pos h3, if_neg h4]
          · simp only [segTrimF]
            rw [← hjdef, if_pos hn, if_neg h1, if_neg h2, if_pos h3, if_neg h4]
            omega
          · rw [concatAll_snoc_length]
            rw [sliceList_len_eq css i j (by omega) (by omega)]
            omega
      · set j := scanIdx noc (fun c => c = '{') i with hjdef
        have hjge : i ≤ j := scanIdx_ge noc _ i
        by_cases h5 : noc.length ≤ j
        · left
          constructor
          · simp only [segStep]
            rw [← hjdef, if_neg h1, if_neg h2, if_neg h3, if_pos h5]
          · simp only [segTrimF]
            rw [← hjdef, if_pos hn, if_neg h1, if_neg h2, if_neg h3, if_pos h5]
        · have hjlt : j < noc.length := by omega
          set k := bodyEnd noc (j + 1) 1 with hkdef
          have hkge : j + 1 ≤ k := bodyEnd_ge noc (j + 1) 1
          have hkle : k ≤ noc.length := bodyEnd_le noc (j + 1) 1 (by omega)
          set ps := sliceList css i j with hpsdef
          have hpslen : ps.length = j - i := sliceList_len_eq css i j (by omega) (by omega)
          have hstriple := pyStrip_len_le ps
          have hbodylen : (sliceList css j k).length = k - j :=
            sliceList_len_eq css j k (by omega) (by omega)
          rcases hv : ruleVerdict used (split_selectors (pyStrip ps)) with _ | r
          · right
            refine ⟨k, { st with out := st.out ++ [ps.takeWhile pyIsSpace ++ pyStrip ps ++ sliceList css j k], kept := st.kept + 1 }, ps.length - ((ps.takeWhile pyIsSpace).length + (pyStrip ps).length), ?_, by omega, by omega, ?_, Or.inl ⟨rfl, ?_⟩⟩
            · simp only [segStep]
              rw [← hjdef, if_neg h1, if_neg h2, if_neg h3, if_neg h5, ← hkdef, ← hpsdef]
              simp only [hv]
            · simp only [segTrimF]
              rw [← hjdef, if_pos hn, if_neg h1, if_neg h2, if_neg h3, if_neg h5, ← hkdef,
                ← hpsdef]
            · rw [concatAll_snoc_length]
              rw [List.length_append, List.length_append, hbodylen]
              omega
          · right
            refine ⟨k, { st with removed := st.removed + 1, removedRules := st.removedRules ++ [r] }, ps.length - ((ps.takeWhile pyIsSpace).length + (pyStrip ps).length), ?_, by omega, by omega, ?_, Or.inr ⟨rfl, rfl, by omega⟩⟩
            · simp only [segStep]
              rw [← hjdef, if_neg h1, if_neg h2, if_neg h3, if_neg h5, ← hkdef, ← hpsdef]
              simp only [hv]
            · simp only [segTrimF]
              rw [← hjdef, if_pos hn, if_neg h1, if_neg h2, if_neg h3, if_neg h5, ← hkdef,
                ← hpsdef]

theorem segLoopF_outLen_le (used : List (List Char)) (css noc : List Char)
    (hc : css.length = noc.length) :
    ∀ (fuel i : Nat) (st : SegState),
      (concatAll (segLoopF used css noc fuel i st).out).length ≤
        (concatAll st.out).length + (noc.length - i)
  | 0, i, st => by simp [segLoopF]
  | fuel + 1, i, st => by
      by_cases hn : i < noc.length
      · rcases segStep_cases used css noc i st fuel hn hc with ⟨hd, -⟩ |
          ⟨i', st', t, he, hii, hin, -, hcase⟩
        · simp only [segLoopF, if_pos hn, hd]
          rw [concatAll_snoc_length, List.length_drop]
          omega
        · simp only [segLoopF, if_pos hn, he]
          have IH := segLoopF_outLen_le used css noc hc fuel i' st'
          rcases hcase with ⟨-, heq⟩ | ⟨-, hout, -⟩
          · omega
          · rw [hout] at IH
            omega
      · simp [segLoopF, hn]

theorem segLoopF_removed_mono (used : List (List Char)) (css noc : List Char)
    (hc : css.length = noc.length) :
    ∀ (fuel i : Nat) (st : SegState),
      st.removed ≤ (segLoopF used css noc fuel i st).removed
  | 0, i, st => by simp [segLoopF]
  | fuel + 1, i, st => by
      by_cases hn : i < noc.length
      · rcases segStep_cases used css noc i st fuel hn hc with ⟨hd, -⟩ |
          ⟨i', st', t, he, -, -, -, hcase⟩
        · simp [segLoopF, if_pos hn, hd]
        · simp only [segLoopF, if_pos hn, he]
          have IH := segLoopF_removed_mono used css noc hc fuel i' st'
          rcases hcase with ⟨hrm, -⟩ | ⟨hrm, -, -⟩ <;> omega
      · simp [segLoopF, hn]

theorem segLoopF_trim_exact (used : List (List Char)) (css noc : List Char)
    (hc : css.length = noc.length) :
    ∀ (fuel i : Nat) (st : SegState), noc.length - i ≤ fuel →
      (segLoopF used css noc fuel i st).removed = st.removed →
      (concatAll (segLoopF used css noc fuel i st).out).length + segTrimF css noc fuel i =
        (concatAll st.out).length + (noc.length - i)
  | 0, i, st => by
      intro hf _
      simp only [segLoopF, segTrimF]
      omega
  | fuel + 1, i, st => by
      intro hf hr
      by_cases hn : i < noc.length
      · rcases segStep_cases used css noc i st fuel hn hc with ⟨hd, ht⟩ |
          ⟨i', st', t, he, hii, hin, ht, hcase⟩
        · simp only [segLoopF, if_pos hn, hd] at hr ⊢
          rw [ht, concatAll_snoc_length, List.length_drop]
          omega
        · simp only [segLoopF, if_pos hn, he] at hr ⊢
          have hmono := segLoopF_removed_mono used css noc hc fuel i' st'
          rcases hcase with ⟨hrm, heq⟩ | ⟨hrm, -, -⟩
          · have IH := segLoopF_trim_exact used css noc hc fuel i' st' (by omega) (by omega)
            rw [ht]
            omega
          · omega
      · simp only [segLoopF, if_neg hn, segTrimF] at hr ⊢
        omega

theorem segLoopF_fuel_stable (used : List (List Char)) (css noc : List Char) :
    ∀ (f1 i : Nat) (st : SegState) (f2 : Nat), noc.length - i ≤ f1 → noc.length - i ≤ f2 →
      segLoopF used css noc f1 i st = segLoopF used css noc f2 i st
  | 0, i, st, f2 => by
      intro h1 h2
      have hn : ¬ i < noc.length := by omega
      cases f2 <;> simp [segLoopF, hn]
  | f1 + 1, i, st, f2 => by
      intro h1 h2
      by_cases hn : i < noc.length
      · have hf2 : 0 < f2 := by omega
        obtain ⟨g, rfl⟩ : ∃ g, f2 = g + 1 := ⟨f2 - 1, by omega⟩
        simp only [segLoopF, if_pos hn]
        cases he : segStep used css noc i st with
        | done st' => rfl
        | cont i' st' =>
            have hadv := segStep_advance hn he
            exact segLoopF_fuel_stable used css noc f1 i' st' g (by omega) (by omega)
      · cases f2 <;> simp [segLoopF, hn]

theorem verdict_foldl (used : List (List Char)) :
    ∀ (sels : List (List Char)) (acc : List (List Char)) (u b : Bool),
      sels.foldl (verdictStep used) (acc, u, b) =
        (acc ++ sels.flatMap classTokensOf,
          u || sels.any (fun s => (classTokensOf s).any (fun t => used.contains t)),
          b || sels.any (fun s => !(classTokensOf s).isEmpty))
  | [], acc, u, b => by simp
  | s :: rest, acc, u, b => by
      rw [List.foldl_cons]
      by_cases h : (classTokensOf s).isEmpty = true
      · have hnil : classTokensOf s = [] := List.isEmpty_iff.mp h
        have hstep : verdictStep used (acc, u, b) s = (acc, u, b) := by
          simp [verdictStep, h]
        rw [hstep, verdict_foldl used rest acc u b]
        simp [List.flatMap_cons, List.any_cons, hnil]
      · have hstep : verdictStep used (acc, u, b) s =
            (acc ++ classTokensOf s, u || (classTokensOf s).any (fun t => used.contains t),
              true) := by
          simp [verdictStep, h]
        rw [hstep, verdict_foldl used rest (acc ++ classTokensOf s) _ true]
        simp only [Bool.not_eq_true] at h
        simp [List.flatMap_cons, List.any_cons, List.append_assoc, Bool.or_assoc, h]

theorem anyUsed_iff (used : List (List Char)) (sels : List (List Char)) :
    sels.any (fun s => (classTokensOf s).any (fun t => used.contains t)) = true ↔
      ∃ t ∈ sels.flatMap classTokensOf, t ∈ used := by
  simp only [List.any_eq_true, List.mem_flatMap, List.contains, List.elem_iff]
  constructor
  · rintro ⟨s, hs, t, ht, hu⟩
    exact ⟨t, ⟨s, hs, ht⟩, hu⟩
  · rintro ⟨t, ⟨s, hs, ht⟩, hu⟩
    exact ⟨s, hs, t, ht, hu⟩

/-- C1: for every CSS rule segmented by the pruner (its selectors being
`split_selectors` of the stripped prelude), the keep/remove decision is: if
no selector yields any class token, the rule is kept unconditionally; if
class tokens exist, the rule is kept iff at least one token is a member of
the used-class set, and otherwise it is removed with all its selectors and
the sorted unique set of its class tokens recorded for the report. -/
theorem claim_C1 (used : List (List Char)) (prelude : List Char) :
    (((split_selectors prelude).flatMap classTokensOf = []) →
        ruleVerdict used (split_selectors prelude) = Verdict.keep) ∧
    (((split_selectors prelude).flatMap classTokensOf ≠ []) →
      ((ruleVerdict used (split_selectors prelude) = Verdict.keep ↔
          ∃ t ∈ (split_selectors prelude).flatMap classTokensOf, t ∈ used) ∧
        ((∀ t ∈ (split_selectors prelude).flatMap classTokensOf, t ∉ used) →
          ruleVerdict used (split_selectors prelude) = Verdict.drop
            ⟨split_selectors prelude,
              pySortedSet ((split_selectors prelude).flatMap classTokensOf)⟩))) := by
  have hfold := verdict_foldl used (split_selectors prelude) [] false false
  constructor
  · intro hnil
    have hallnil := (flatMapTokens_eq_nil _).mp hnil
    have hanyc : (split_selectors prelude).any (fun s => !(classTokensOf s).isEmpty) = false := by
      rw [List.any_eq_false]
      intro s hs
      simp [hallnil s hs]
    unfold ruleVerdict
    rw [hfold]
    simp [hanyc]
  · intro hne
    have hanyc : (split_selectors prelude).any (fun s => !(classTokensOf s).isEmpty) = true := by
      by_contra hfalse
      have hfalse2 := Bool.eq_false_iff.mpr hfalse
      rw [List.any_eq_false] at hfalse2
      refine hne ((flatMapTokens_eq_nil _).mpr ?_)
      intro s hs
      have := hfalse2 s hs
      simpa using this
    constructor
    · by_cases hu : (split_selectors prelude).any
          (fun s => (classTokensOf s).any (fun t => used.contains t)) = true
      · have hkeep : ruleVerdict used (split_selectors prelude) = Verdict.keep := by
          unfold ruleVerdict
          rw [hfold, hanyc, hu]
          simp
        rw [hkeep]
        constructor
        · intro
          exact (anyUsed_iff used _).mp hu
        · intro
          rfl
      · have hbu : (split_selectors prelude).any
            (fun s => (classTokensOf s).any (fun t => used.contains t)) = false :=
          Bool.eq_false_iff.mpr hu
        have hdrop : ruleVerdict used (split_selectors prelude) = Verdict.drop
            ⟨split_selectors prelude,
              pySortedSet ((split_selectors prelude).flatMap classTokensOf)⟩ := by
          unfold ruleVerdict
          rw [hfold, hanyc, hbu]
          simp
        rw [hdrop]
        constructor
        · intro h
          exact absurd h (by simp)
        · intro h
          exact absurd ((anyUsed_iff used _).mpr h) hu
    · intro hnone
      have hbu : (split_selectors prelude).any
          (fun s => (classTokensOf s).any (fun t => used.contains t)) = false := by
        refine Bool.eq_false_iff.mpr ?_
        intro hu
        obtain ⟨t, ht, htu⟩ := (anyUsed_iff used _).mp hu
        exact hnone t ht htu
      unfold ruleVerdict
      rw [hfold, hanyc, hbu]
      simp

/-- C2: `split_selectors` splits on exactly the top-level commas — a comma
splits iff it occurs outside any quoted string with both depth counters at
zero (inside a string a backslash escapes the following character, both
characters being copied and the position advancing by two); in particular
splitting `":not(a, b), c"` yields `[":not(a, b)", "c"]`. -/
theorem claim_C2 :
    split_selectors ":not(a, b), c".data = [":not(a, b)".data, "c".data] ∧
    (∀ (s : List Char) (parts : List (List Char)) (buf : List Char),
        splitLoop (',' :: s) parts buf 0 0 none =
          splitLoop s (parts ++ [pyStrip buf]) [] 0 0 none) ∧
    (∀ (s : List Char) (parts : List (List Char)) (buf : List Char) (dp db : Nat),
        0 < dp ∨ 0 < db →
        splitLoop (',' :: s) parts buf dp db none =
          splitLoop s parts (buf ++ [',']) dp db none) ∧
    (∀ (s : List Char) (parts : List (List Char)) (buf : List Char) (dp db : Nat) (q : Char),
        isQuote q = true →
        splitLoop (',' :: s) parts buf dp db (some q) =
          splitLoop s parts (buf ++ [',']) dp db (some q)) ∧
    (∀ (s : List Char) (parts : List (List Char)) (buf : List Char) (dp db : Nat) (q c : Char),
        isQuote q = true →
        splitLoop (bslash :: c :: s) parts buf dp db (some q) =
          splitLoop s parts (buf ++ [bslash, c]) dp db (some q)) := by
  refine ⟨by decide, ?_, ?_, ?_, ?_⟩
  · intro s parts buf
    rfl
  · intro s parts buf dp db h
    have hcond : ¬ (dp = 0 ∧ db = 0) := by omega
    have hnq : isQuote ',' = false := by decide
    simp [splitLoop, hcond, hnq]
  · intro s parts buf dp db q hq
    have hq2 : q = dquote ∨ q = squote := by
      simpa [isQuote] using hq
    have hne : ¬ (',' = q) := by
      rcases hq2 with rfl | rfl <;> decide
    rw [splitLoop.eq_def]
    simp only
    rw [if_neg hne, if_neg (by decide : ¬ (',' = bslash))]
  · intro s parts buf dp db q c hq
    have hq2 : q = dquote ∨ q = squote := by
      simpa [isQuote] using hq
    have hne : ¬ (bslash = q) := by
      rcases hq2 with rfl | rfl <;> decide
    rw [splitLoop.eq_def]
    simp only
    rw [if_neg hne]
    simp

/-- C3 (amended): when the segmentation loop meets an `@` at a position, the
at-rule header — through its terminating `;` (statement form) or its opening
`{` (block form), or to end of input when neither occurs — is emitted as one
verbatim slice of the original text, the kept/removed counters and the
removed-rule records are untouched, and the loop continues right after the
header; the body of a block-form at-rule is then processed by the same loop
(and so can be pruned, refuting the claim's original "no text belonging to
an at-rule is removed", see the counterexample). -/
theorem claim_C3 (used : List (List Char)) (css noc : List Char) (fuel i : Nat) (st : SegState)
    (hn : i < noc.length) (hat : noc.getD i ' ' = '@') :
    segLoopF used css noc (fuel + 1) i st =
      segLoopF used css noc fuel
        (min (scanIdx noc (fun c => c = '{' || c = ';') i + 1) noc.length)
        (pushOut st
          (sliceList css i (min (scanIdx noc (fun c => c = '{' || c = ';') i + 1) noc.length))) := by
  have h1 : ¬ noc.getD i ' ' = '}' := by
    rw [hat]
    decide
  have h2 : ¬ pyIsSpace (noc.getD i ' ') = true := by
    rw [hat]
    decide
  have hjge := scanIdx_ge noc (fun c => c = '{' || c = ';') i
  have hjle := scanIdx_le noc (fun c => c = '{' || c = ';') i (Nat.le_of_lt hn)
  simp only [segLoopF, if_pos hn]
  simp only [segStep]
  rw [if_neg h1, if_neg h2, if_pos hat]
  by_cases h4 : scanIdx noc (fun c => c = '{' || c = ';') i < noc.length
  · rw [if_pos h4]
    have hmin : min (scanIdx noc (fun c => c = '{' || c = ';') i + 1) noc.length =
        scanIdx noc (fun c => c = '{' || c = ';') i + 1 := by omega
    rw [hmin]
    rfl
  · rw [if_neg h4]
    have hmin : min (scanIdx noc (fun c => c = '{' || c = ';') i + 1) noc.length =
        scanIdx noc (fun c => c = '{' || c = ';') i := by omega
    rw [hmin]
    rfl

/-- C3 counterexample: the claim as stated ("no text belonging to an at-rule
is removed, for every UsedClassSet") is false for block-form at-rules — the
nested rule inside `@media screen{...}` is removed by the same loop. -/
theorem claim_C3_cex :
    pruned_css "@media screen\x7b.old\x7bc:d\x7d\x7d".data [] = "@media screen\x7b\x7d".data ∧
    (pruneResult "@media screen\x7b.old\x7bc:d\x7d\x7d".data []).removed = 1 := by
  decide

theorem claim_C3_witness :
    segLoopF [] "@import x;".data "@import x;".data 2 0 ⟨[], 0, 0, []⟩ =
      (⟨["@import x;".data], 0, 0, []⟩ : SegState) := by
  have h := claim_C3 [] "@import x;".data "@import x;".data 1 0 ⟨[], 0, 0, []⟩ (by decide)
    (by decide)
  exact h.trans (by decide)

/-- C5 (amended): when the scanner is at a rule start and no opening brace
occurs anywhere ahead, the remaining original text is emitted unchanged as a
single fragment and scanning stops (no error, counters untouched).  A rule
whose body lacks its closing brace is NOT passed through: its body extends
to end of input and the normal keep/remove decision applies (see the
counterexample, where such a rule is removed entirely). -/
theorem claim_C5 (used : List (List Char)) (css noc : List Char) (fuel i : Nat) (st : SegState)
    (hn : i < noc.length) (h1 : noc.getD i ' ' ≠ '}')
    (h2 : pyIsSpace (noc.getD i ' ') = false) (h3 : noc.getD i ' ' ≠ '@')
    (h4 : noc.length ≤ scanIdx noc (fun c => c = '{') i) :
    segLoopF used css noc (fuel + 1) i st = pushOut st (css.drop i) := by
  have h2' : ¬ pyIsSpace (noc.getD i ' ') = true := by
    rw [h2]
    decide
  simp only [segLoopF, if_pos hn]
  simp only [segStep]
  rw [if_neg h1, if_neg h2', if_neg h3, if_pos h4]
  rfl

/-- C5 counterexample: a rule with an opening brace but no closing brace is
an "unterminated CSS rule at end of file" whose text is NOT emitted
unchanged — here it is removed entirely (output empty, one removed rule). -/
theorem claim_C5_cex :
    pruned_css ".old\x7bc:d".data [] = [] ∧
    (pruneResult ".old\x7bc:d".data []).removed = 1 := by
  decide

theorem claim_C5_witness :
    segLoopF [] ".x".data ".x".data 3 0 ⟨[], 0, 0, []⟩ =
      (⟨[".x".data], 0, 0, []⟩ : SegState) := by
  have h := claim_C5 [] ".x".data ".x".data 2 0 ⟨[], 0, 0, []⟩ (by decide) (by decide) (by decide)
    (by decide) (by decide)
  exact h.trans (by decide)

/-- C4 (amended): if the pruner removes no rule, the pruned output length
plus the total whitespace stripped from rule preludes reconstructs the
original length exactly; the output can be strictly shorter than the
original even with no removals (see the counterexample) because each kept
rule is emitted as leading-whitespace + stripped-prelude + body, dropping
the whitespace between selector text and the opening brace. -/
theorem claim_C4 (css : List Char) (used : List (List Char))
    (h : (pruneResult css used).removed = 0) :
    pruned_bytes css used + segTrim css = original_bytes css := by
  have hc : css.length = (blankComments css).length := (blankComments_len css).symm
  have hrem : (segLoopF used css (blankComments css) (blankComments css).length 0
      ⟨[], 0, 0, []⟩).removed = (⟨[], 0, 0, []⟩ : SegState).removed := by
    unfold pruneResult at h
    exact h
  have hx := segLoopF_trim_exact used css (blankComments css) hc (blankComments css).length 0
    ⟨[], 0, 0, []⟩ (by omega) hrem
  unfold pruned_bytes pruned_css pruneResult original_bytes segTrim
  simp only [concatAll, List.length_nil] at hx
  omega

/-- C4 counterexample: with no rule removed, the pruned output is strictly
shorter than the original (`".a {x}"` with used class `a` yields `".a{x}"`),
so the original claim's exact length reconstruction fails. -/
theorem claim_C4_cex :
    (pruneResult ".a \x7bx\x7d".data ["a".data]).removed = 0 ∧
    pruned_bytes ".a \x7bx\x7d".data ["a".data] ≠ original_bytes ".a \x7bx\x7d".data := by
  decide

theorem claim_C4_witness :
    pruned_bytes ".a \x7bx\x7d".data ["a".data] + segTrim ".a \x7bx\x7d".data =
      original_bytes ".a \x7bx\x7d".data :=
  claim_C4 ".a \x7bx\x7d".data ["a".data] (by decide)

/-- C9: for every stylesheet and every used-class set the pruned output is
never longer than the original, and in the report
`bytes_saved_estimate = original_bytes - pruned_bytes ≥ 0`. -/
theorem claim_C9 (css : List Char) (used : List (List Char)) :
    pruned_bytes css used ≤ original_bytes css ∧
    bytes_saved_estimate css used = (original_bytes css : Int) - (pruned_bytes css used : Int) ∧
    0 ≤ bytes_saved_estimate css used := by
  have hc : css.length = (blankComments css).length := (blankComments_len css).symm
  have h := segLoopF_outLen_le used css (blankComments css) hc (blankComments css).length 0
    ⟨[], 0, 0, []⟩
  simp only [concatAll, List.length_nil] at h
  have hb : pruned_bytes css used ≤ original_bytes css := by
    unfold pruned_bytes pruned_css pruneResult original_bytes
    omega
  refine ⟨hb, rfl, ?_⟩
  unfold bytes_saved_estimate
  omega

/-- C10: the segmentation scanner terminates on every finite input — every
continuing iteration of the loop strictly advances the position index, and
the loop is insensitive to any fuel of at least `n - i`, i.e. it finishes
within `len(input)` iterations. -/
theorem claim_C10 :
    (∀ (used : List (List Char)) (css noc : List Char) (i : Nat) (st : SegState)
        (i' : Nat) (st' : SegState), i < noc.length →
        segStep used css noc i st = StepRes.cont i' st' → i < i') ∧
    (∀ (used : List (List Char)) (css noc : List Char) (i : Nat) (st : SegState)
        (f1 f2 : Nat), noc.length - i ≤ f1 → noc.length - i ≤ f2 →
        segLoopF used css noc f1 i st = segLoopF used css noc f2 i st) :=
  ⟨fun _ _ _ _ _ _ _ hn he => (segStep_advance hn he).1,
    fun used css noc i st f1 f2 h1 h2 => segLoopF_fuel_stable used css noc f1 i st f2 h1 h2⟩

theorem claim_C10_witness :
    segLoopF [] ".x".data ".x".data 2 0 ⟨[], 0, 0, []⟩ =
      segLoopF [] ".x".data ".x".data 99 0 ⟨[], 0, 0, []⟩ :=
  claim_C10.2 [] ".x".data ".x".data 0 ⟨[], 0, 0, []⟩ 2 99 (by decide) (by decide)

theorem claim_C1_witness :
    ruleVerdict ["btn".data] (split_selectors ".old".data) =
      Verdict.drop ⟨[".old".data], ["old".data]⟩ := by
  have h := (claim_C1 ["btn".data] ".old".data).2 (by decide)
  have h2 := h.2 (by decide)
  exact h2.trans (by decide)

theorem claim_C2_witness :
    splitLoop [','] [] ['a'] 1 0 none = splitLoop [] [] ['a', ','] 1 0 none ∧
    splitLoop [','] [] ['a'] 0 0 (some dquote) = splitLoop [] [] ['a', ','] 0 0 (some dquote) :=
  ⟨claim_C2.2.2.1 [] [] ['a'] 1 0 (Or.inl (by decide)),
    claim_C2.2.2.2.1 [] [] ['a'] 0 0 dquote (by decide)⟩

/-- C6 (code bug): the organizer pipeline is NOT idempotent on its own
output — the live rule extractor is the later class-only definition, whose
output contains no `.class { ... }` shaped rules (selector category is
always `elements`, emitted without a dot, with per-character declarations
from `list.extend(str)`), so a second application extracts nothing and
yields the empty string while the first application is non-empty. -/
theorem claim_C6 :
    organizePipeline (organizePipeline ".btn\x7bcolor:red\x7d") = "" ∧
    organizePipeline ".btn\x7bcolor:red\x7d" ≠ "" := by
  decide

/-- C7: the organizer's reference flow runs the class-only extractor (the
second, later `extract_css_rules` definition — Python name resolution at
call time): the pipeline equals one built on the class-only extractor, and
this is observable — on `"body{margin:0}"` (a rule the shadowed generic
extractor would parse) the live pipeline yields the empty string while the
generic-extractor pipeline yields a non-empty organized block. -/
theorem claim_C7 :
    (∀ css_content : String, organizePipeline css_content =
        generate_organized_css (organize_selectors
          (merge_duplicate_selectors (extract_css_rules css_content)))) ∧
    organizePipeline "body\x7bmargin:0\x7d" = "" ∧
    genericPipeline "body\x7bmargin:0\x7d" ≠ "" :=
  ⟨fun _ => rfl, by decide, by decide⟩

theorem entryTokens_none (e : FsEntry) (he : e.content = none) : entryTokens e = [] := by
  unfold entryTokens
  rw [he]
  split_ifs <;> rfl

theorem entryTokens_ok (e : FsEntry) (txt : String) (hf : e.isFile = true)
    (hs : allowedExts.contains (pyLowerS e.suffix) = true) (hc : e.content = some txt) :
    entryTokens e = collectUsedTokens txt.data := by
  unfold entryTokens
  rw [hf, hs, hc]
  simp

/-- C8: a read failure on any one file is swallowed — that file contributes
nothing, scanning of the remaining files continues unchanged, no error
surfaces (the scan is a total function), and the used-class set still
contains every token collected from each readable allowed file. -/
theorem claim_C8 :
    (∀ (pre post : List FsEntry) (e : FsEntry), e.content = none →
        scanUsedClasses (pre ++ e :: post) = scanUsedClasses (pre ++ post)) ∧
    (∀ (entries : List FsEntry) (e : FsEntry) (txt : String), e ∈ entries →
        e.isFile = true → allowedExts.contains (pyLowerS e.suffix) = true →
        e.content = some txt →
        ∀ t ∈ collectUsedTokens txt.data, t ∈ scanUsedClasses entries) := by
  constructor
  · intro pre post e he
    induction pre with
    | nil =>
        simp only [List.nil_append, scanUsedClasses, entryTokens_none e he]
    | cons f rest ih =>
        simp only [List.cons_append, scanUsedClasses]
        exact congrArg (entryTokens f ++ ·) ih
  · intro entries e txt hmem hf hs hc t ht
    induction entries with
    | nil => cases hmem
    | cons f rest ih =>
        simp only [scanUsedClasses]
        rcases List.mem_cons.mp hmem with rfl | hrest
        · rw [entryTokens_ok e txt hf hs hc]
          exact List.mem_append.mpr (Or.inl ht)
        · exact List.mem_append.mpr (Or.inr (ih hrest))

theorem claim_C8_witness :
    scanUsedClasses [⟨true, ".js", none⟩, ⟨true, ".html", some "class=\x22btn\x22"⟩] =
      scanUsedClasses [⟨true, ".html", some "class=\x22btn\x22"⟩] ∧
    "btn".data ∈ scanUsedClasses [⟨true, ".js", none⟩, ⟨true, ".html", some "class=\x22btn\x22"⟩] :=
  ⟨claim_C8.1 [] [⟨true, ".html", some "class=\x22btn\x22"⟩] ⟨true, ".js", none⟩ rfl,
    claim_C8.2 [⟨true, ".js", none⟩, ⟨true, ".html", some "class=\x22btn\x22"⟩]
      ⟨true, ".html", some "class=\x22btn\x22"⟩ "class=\x22btn\x22" (by decide) rfl (by decide) rfl
      "btn".data (by decide)⟩
